import Mathlib

/-
  Verification of the CHIP-8 interpreter (src/instructions.rs, src/machine.rs,
  src/screen.rs, src/keyboard.rs) against its natural-language specification.

  Machine integers are modelled as Nat with explicit `% 2^w` at the points where
  the Rust code truncates (`as u8`, `as u16`, `overflowing_*`).  Fallible
  operations (array indexing out of bounds, reachable `unreachable!()`,
  checked-arithmetic overflow) are modelled with Option: `none` is a fatal
  fault of the interpreter process.
-/

namespace Chip8

/-- Pointwise function update, modelling an array element assignment. -/
def updateFun (f : Nat → Nat) (i v : Nat) : Nat → Nat :=
  fun j => if j = i then v else f j

/-- src/screen.rs: `pixels: [[u8; 64]; 32]`, indexed `pixels[y][x]`. -/
structure Screen where
  pixels : Nat → Nat → Nat

/-- src/screen.rs `Screen::get`: normalises a stored pixel to 0 or 1.
All engine accesses are pre-reduced mod 64 / mod 32, hence in bounds. -/
def Screen.get (s : Screen) (x y : Nat) : Nat :=
  if s.pixels y x = 0 then 0 else 1

/-- src/screen.rs `Screen::set`. -/
def Screen.set (s : Screen) (x y bit : Nat) : Screen :=
  { pixels := fun py px => if py = y ∧ px = x then bit else s.pixels py px }

/-- src/screen.rs `Screen::clear`: zeroes every pixel. -/
def Screen.clear (_s : Screen) : Screen :=
  { pixels := fun _ _ => 0 }

/-- src/keyboard.rs: `keys: [bool; 16]`. -/
structure Keyboard where
  keys : Nat → Bool

/-- src/keyboard.rs `Keyboard::is_pressed`: `self.keys[n]`, out of bounds is a
panic. -/
def Keyboard.isPressed (k : Keyboard) (n : Nat) : Option Bool :=
  if n < 16 then some (k.keys n) else none

/-- src/keyboard.rs `Keyboard::get_pressed`: first pressed key among 0..16. -/
def Keyboard.getPressed (k : Keyboard) : Option Nat :=
  (List.range 16).find? (fun i => k.keys i)

/-- src/instructions.rs `enum Instruction`. -/
inductive Instruction where
  | Sys (nnn : Nat)
  | Cls
  | Ret
  | Jmp (nnn : Nat)
  | Call (nnn : Nat)
  | SkipEq (x kk : Nat)
  | SkipNEq (x kk : Nat)
  | SkipEqV (x y : Nat)
  | Set (x kk : Nat)
  | Add (x kk : Nat)
  | Load (x y : Nat)
  | Or (x y : Nat)
  | And (x y : Nat)
  | Xor (x y : Nat)
  | AddCarry (x y : Nat)
  | SubCarry (x y : Nat)
  | Shr (x y : Nat)
  | SubN (x y : Nat)
  | Shl (x y : Nat)
  | Sne (x y : Nat)
  | LoadI (nnn : Nat)
  | JmpV0 (nnn : Nat)
  | Rnd (x kk : Nat)
  | Drw (x y n : Nat)
  | SkipPressed (x : Nat)
  | SkipNPressed (x : Nat)
  | LoadDT (x : Nat)
  | LoadKeyPress (x : Nat)
  | SetDT (x : Nat)
  | SetST (x : Nat)
  | AddI (x : Nat)
  | LoadSprite (x : Nat)
  | LoadBCD (x : Nat)
  | LoadAllI (x : Nat)
  | SetAllI (x : Nat)
deriving DecidableEq

/-- src/instructions.rs `u16_to_nibbles`. -/
def u16ToNibbles (n : Nat) : Nat × Nat × Nat × Nat :=
  (n >>> 12, (n >>> 8) &&& 0xf, (n >>> 4) &&& 0xf, n &&& 0xf)

/-- src/instructions.rs `kk`: concatenation of two nibbles into a byte. -/
def kkImm (k1 k2 : Nat) : Nat :=
  k1 <<< 4 ||| k2

/-- src/instructions.rs `nnn`: concatenation of three nibbles into an address. -/
def nnnAddr (n1 n2 n3 : Nat) : Nat :=
  (n1 <<< 8) ||| (n2 <<< 4) ||| n3

/-- src/instructions.rs `impl From<u16> for Instruction`, arms in source order.
The source's final arm is `unreachable!()`, a panic: modelled as `none`. -/
def decodeWord (w : Nat) : Option Instruction :=
  match u16ToNibbles w with
  | (0x0, 0x0, 0xe, 0x0) => some .Cls
  | (0x0, 0x0, 0xe, 0xe) => some .Ret
  | (0x3, x, k1, k2) => some (.SkipEq x (kkImm k1 k2))
  | (0x4, x, k1, k2) => some (.SkipNEq x (kkImm k1 k2))
  | (0x5, x, y, 0x0) => some (.SkipEqV x y)
  | (0x6, x, k1, k2) => some (.Set x (kkImm k1 k2))
  | (0x7, x, k1, k2) => some (.Add x (kkImm k1 k2))
  | (0x8, x, y, 0x0) => some (.Load x y)
  | (0x8, x, y, 0x1) => some (.Or x y)
  | (0x8, x, y, 0x2) => some (.And x y)
  | (0x8, x, y, 0x3) => some (.Xor x y)
  | (0x8, x, y, 0x4) => some (.AddCarry x y)
  | (0x8, x, y, 0x5) => some (.SubCarry x y)
  | (0x8, x, y, 0x6) => some (.Shr x y)
  | (0x8, x, y, 0x7) => some (.SubN x y)
  | (0x8, x, y, 0xe) => some (.Shl x y)
  | (0x9, x, y, 0x0) => some (.Sne x y)
  | (0xa, n1, n2, n3) => some (.LoadI (nnnAddr n1 n2 n3))
  | (0xb, n1, n2, n3) => some (.JmpV0 (nnnAddr n1 n2 n3))
  | (0xc, x, k1, k2) => some (.Rnd x (kkImm k1 k2))
  | (0xd, x, y, n) => some (.Drw x y n)
  | (0xe, x, 0x9, 0xe) => some (.SkipPressed x)
  | (0xe, x, 0xa, 0x1) => some (.SkipNPressed x)
  | (0xf, x, 0x0, 0x7) => some (.LoadDT x)
  | (0xf, x, 0x0, 0xa) => some (.LoadKeyPress x)
  | (0xf, x, 0x1, 0x5) => some (.SetDT x)
  | (0xf, x, 0x1, 0x8) => some (.SetST x)
  | (0xf, x, 0x1, 0xe) => some (.AddI x)
  | (0xf, x, 0x2, 0x9) => some (.LoadSprite x)
  | (0xf, x, 0x3, 0x3) => some (.LoadBCD x)
  | (0xf, x, 0x5, 0x5) => some (.LoadAllI x)
  | (0xf, x, 0x6, 0x5) => some (.SetAllI x)
  | (0x0, n1, n2, n3) => some (.Sys (nnnAddr n1 n2 n3))
  | (0x1, n1, n2, n3) => some (.Jmp (nnnAddr n1 n2 n3))
  | (0x2, n1, n2, n3) => some (.Call (nnnAddr n1 n2 n3))
  | _ => none

/-- src/machine.rs `struct Machine`.  `ram: [u8; 4098]`, `registers: [u8; 16]`,
`stack: [u16; 16]`; `last_tick` is a wall-clock timestamp in microseconds. -/
structure Machine where
  ram : Nat → Nat
  registers : Nat → Nat
  register_i : Nat
  register_delay : Nat
  register_sound : Nat
  last_tick : Nat
  pc : Nat
  sp : Nat
  stack : Nat → Nat

/-- Register assignment `self.registers[x] = v`. -/
def setReg (m : Machine) (x v : Nat) : Machine :=
  { m with registers := updateFun m.registers x v }

/-- src/instructions.rs `bit` extraction in the draw loop:
`(byte >> (7 - bit)) & 1`. -/
def bitAt (byte b : Nat) : Nat :=
  (byte >>> (7 - b)) &&& 1

/-- One iteration of the inner draw loop (src/machine.rs, Drw arm):
`x` is recomputed from the current register file each iteration. -/
def drawBit (rx y byte b : Nat) (ms : Machine × Screen) : Machine × Screen :=
  let m := ms.1
  let s := ms.2
  let x := (m.registers rx + b) % 64
  let pixel := bitAt byte b
  let old := s.get x y
  (setReg m 15 (m.registers 15 ||| (pixel &&& old)), s.set x y (old ^^^ pixel))

/-- Inner draw loop `for bit in 0..8` unrolled as a recursion that appends the
last bit: `drawRow rx y byte 8` processes bits 0,1,…,7 in source order. -/
def drawRow (rx y byte : Nat) : Nat → Machine × Screen → Machine × Screen
  | 0, ms => ms
  | b + 1, ms => drawBit rx y byte b (drawRow rx y byte b ms)

/-- Outer draw loop over sprite rows.  `i0` and `ram0` are the address register
and ram captured before the loop (the source borrows the sprite slice before
iterating); `y` is recomputed from the current register file at each row. -/
def drawRows (rx ry i0 : Nat) (ram0 : Nat → Nat) :
    Nat → Machine × Screen → Machine × Screen
  | 0, ms => ms
  | i + 1, ms =>
    let ms1 := drawRows rx ry i0 ram0 i ms
    drawRow rx ((ms1.1.registers ry + i) % 32) (ram0 (i0 + i)) 8 ms1

/-- src/machine.rs `Instruction::LoadAllI` loop `for i in 0..=x`:
returns the ram after writing registers 0..k-1 to `I..I+k-1`. -/
def storeRegs (m : Machine) : Nat → (Nat → Nat)
  | 0 => m.ram
  | k + 1 => updateFun (storeRegs m k) (m.register_i + k) (m.registers k)

/-- src/machine.rs `Instruction::SetAllI` loop `for i in 0..=x`:
returns the register file after loading `I..I+k-1` into registers 0..k-1. -/
def loadRegs (m : Machine) : Nat → (Nat → Nat)
  | 0 => m.registers
  | k + 1 => updateFun (loadRegs m k) k (m.ram (m.register_i + k))

/-- src/machine.rs `Machine::step`, execution of one decoded instruction
(the body of the `match ins`).  `m.pc` has already been advanced by 2.
`rnd` is the oracle for `random_byte()`.  `none` models a panic: an
out-of-bounds array index, or checked-arithmetic overflow (debug profile). -/
def execInstr (k : Keyboard) (rnd : Nat) (ins : Instruction) (m : Machine)
    (s : Screen) : Option (Machine × Screen) :=
  match ins with
  | .Sys nnn => some ({ m with pc := nnn }, s)
  | .Cls => some (m, s.clear)
  | .Ret =>
    if m.sp < 16 then
      if m.sp = 0 then none
      else some ({ m with pc := m.stack m.sp, sp := m.sp - 1 }, s)
    else none
  | .Jmp nnn => some ({ m with pc := nnn }, s)
  | .Call nnn =>
    if m.sp + 1 < 16 then
      some ({ m with sp := m.sp + 1,
                     stack := updateFun m.stack (m.sp + 1) (m.pc % 65536),
                     pc := nnn }, s)
    else none
  | .SkipEq x kk =>
    some (if m.registers x = kk then { m with pc := m.pc + 2 } else m, s)
  | .SkipNEq x kk =>
    some (if m.registers x ≠ kk then { m with pc := m.pc + 2 } else m, s)
  | .SkipEqV x y =>
    some (if m.registers x = m.registers y then { m with pc := m.pc + 2 } else m, s)
  | .Set x kk => some (setReg m x kk, s)
  | .Add x kk => some (setReg m x ((m.registers x + kk) % 256), s)
  | .Load x y => some (setReg m x (m.registers y), s)
  | .Or x y => some (setReg m x (m.registers x ||| m.registers y), s)
  | .And x y => some (setReg m x (m.registers x &&& m.registers y), s)
  | .Xor x y => some (setReg m x (m.registers x ^^^ m.registers y), s)
  | .AddCarry x y =>
    let ext := m.registers x + m.registers y
    let m1 := setReg m 15 (if 255 < ext then 1 else 0)
    some (setReg m1 x (ext % 256), s)
  | .SubCarry x y =>
    let m1 := setReg m 15 (if m.registers y < m.registers x then 1 else 0)
    some (setReg m1 x ((m1.registers x + 256 - m1.registers y) % 256), s)
  | .Shr x _y =>
    let m1 := setReg m 15 (m.registers x &&& 1)
    some (setReg m1 x (m1.registers x / 2), s)
  | .SubN x y =>
    let m1 := setReg m 15 (if m.registers x < m.registers y then 1 else 0)
    some (setReg m1 x ((m1.registers y + 256 - m1.registers x) % 256), s)
  | .Shl x _y =>
    let m1 := setReg m 15 (if (m.registers x >>> 0xf) &&& 1 = 1 then 1 else 0)
    some (setReg m1 x ((m1.registers x * 2) % 256), s)
  | .Sne x y =>
    some (if m.registers x ≠ m.registers y then { m with pc := m.pc + 2 } else m, s)
  | .LoadI nnn => some ({ m with register_i := nnn }, s)
  | .JmpV0 nnn => some ({ m with pc := m.registers 0 + nnn }, s)
  | .Rnd x kk => some (setReg m x ((rnd % 256) &&& kk), s)
  | .Drw x y n =>
    if m.register_i + n ≤ 4098 then
      some (drawRows x y m.register_i m.ram n (setReg m 15 0, s))
    else none
  | .SkipPressed x =>
    match k.isPressed (m.registers x) with
    | none => none
    | some true => some ({ m with pc := m.pc + 2 }, s)
    | some false => some (m, s)
  | .SkipNPressed x =>
    match k.isPressed (m.registers x) with
    | none => none
    | some true => some (m, s)
    | some false => some ({ m with pc := m.pc + 2 }, s)
  | .LoadDT x => some (setReg m x m.register_delay, s)
  | .LoadKeyPress x =>
    match k.getPressed with
    | some i => some (setReg m x i, s)
    | none => some ({ m with pc := m.pc - 2 }, s)
  | .SetDT x => some ({ m with register_delay := m.registers x }, s)
  | .SetST x => some ({ m with register_sound := m.registers x }, s)
  | .AddI x =>
    if m.register_i + m.registers x < 65536 then
      some ({ m with register_i := m.register_i + m.registers x }, s)
    else none
  | .LoadSprite x =>
    if 15 < m.registers x then none
    else some ({ m with register_i := m.registers x * 5 }, s)
  | .LoadBCD x =>
    if m.register_i + 2 < 4098 then
      let v := m.registers x
      let ram1 := updateFun m.ram m.register_i (v / 100)
      let ram2 := updateFun ram1 (m.register_i + 1) (v % 100 / 10)
      let ram3 := updateFun ram2 (m.register_i + 2) (v % 100 % 10)
      some ({ m with ram := ram3 }, s)
    else none
  | .LoadAllI x =>
    if m.register_i + x < 4098 then
      some ({ m with ram := storeRegs m (x + 1) }, s)
    else none
  | .SetAllI x =>
    if m.register_i + x < 4098 then
      some ({ m with registers := loadRegs m (x + 1) }, s)
    else none

/-- src/machine.rs timer block at the end of `Machine::step`:
`TIMER_RATE = 16666` microseconds.  `now` is the current wall-clock time. -/
def tick (now : Nat) (m : Machine) : Machine :=
  if 16666 ≤ now - m.last_tick then
    { m with
      register_delay := if 0 < m.register_delay then m.register_delay - 1
                        else m.register_delay,
      register_sound := if 0 < m.register_sound then m.register_sound - 1
                        else m.register_sound,
      last_tick := now }
  else m

/-- Instruction fetch: `(ram[pc] as usize) << 8 | ram[pc+1] as usize) as u16`. -/
def fetchWord (m : Machine) : Nat :=
  ((m.ram m.pc) <<< 8 ||| m.ram (m.pc + 1)) % 65536

/-- src/machine.rs `Machine::step`: fetch (bounds-checked), advance pc by 2,
decode, execute, then the rate-limited timer tick. -/
def step (k : Keyboard) (rnd now : Nat) (m : Machine) (s : Screen) :
    Option (Machine × Screen) :=
  if m.pc + 1 < 4098 then
    let w := fetchWord m
    match decodeWord w with
    | none => none
    | some ins =>
      match execInstr k rnd ins { m with pc := m.pc + 2 } s with
      | none => none
      | some (m', s') => some (tick now m', s')
  else none

/-- Iterated `step` with one wall-clock timestamp per invocation. -/
def stepN (k : Keyboard) (rnd : Nat) :
    List Nat → Machine → Screen → Option (Machine × Screen)
  | [], m, s => some (m, s)
  | t :: ts, m, s =>
    match step k rnd t m s with
    | none => none
    | some (m', s') => stepN k rnd ts m' s'

/-! Concrete fixtures used by counterexamples and witnesses. -/

/-- Keyboard with no key pressed. -/
def keysNone : Keyboard :=
  { keys := fun _ => false }

/-- Keyboard with exactly key 3 pressed. -/
def keys3 : Keyboard :=
  { keys := fun i => i == 3 }

/-- All-black screen. -/
def screen0 : Screen :=
  { pixels := fun _ _ => 0 }

/-- A freshly initialised machine core (zero registers/timers/stack, pc at the
0x200 load address); the glyph table is irrelevant to the claims and omitted. -/
def baseMachine : Machine :=
  { ram := fun _ => 0, registers := fun _ => 0, register_i := 0,
    register_delay := 0, register_sound := 0, last_tick := 0,
    pc := 512, sp := 0, stack := fun _ => 0 }

/-- C1: the claim says decoding is total over all 65536 words and never faults.
The source's decoder ends in a reachable panic arm: words such as 0x5001,
0x8008 and 0xE000 match no listed opcode shape and no 0/1/2 fallback, and the
decoder faults on them (modelled as `none`). -/
theorem C1_decode_faults_on_unlisted_shapes :
    decodeWord 0x5001 = none ∧ decodeWord 0x8008 = none ∧
      decodeWord 0xE000 = none ∧ decodeWord 0xF000 = none :=
  ⟨rfl, rfl, rfl, rfl⟩

/-- C2: failing input for the left-shift flag law.  With v = 128 in register 0,
executing the left-shift stores (128*2) mod 256 = 0 as claimed, but sets the
flag register to 0, while the claim requires flag = (v>>7)&1 = 1: the source
computes `(v as usize) >> 0xf & 1`, which is 0 for every 8-bit v. -/
theorem C2_shl_flag_failing_input :
    ∃ p : Machine × Screen,
      execInstr keysNone 0 (.Shl 0 1) (setReg baseMachine 0 128) screen0 =
        some p ∧
      p.1.registers 0 = 0 ∧ p.1.registers 15 = 0 ∧ p.1.registers 15 ≠ 1 :=
  ⟨_, rfl, rfl, rfl, by decide⟩

/-- C3: counterexample to the claim as stated.  Take a = b = 5 with x = 0,
y = 15 (the claim constrains only x ≠ 15): the claim demands flag = 1 (a ≥ b)
and V0 = (5−5) mod 256 = 0, but the code sets flag = 0 (strict comparison) and
then subtracts the freshly written flag, storing 5. -/
theorem C3_counterexample :
    ∃ p : Machine × Screen,
      execInstr keysNone 0 (.SubCarry 0 15)
        (setReg (setReg baseMachine 0 5) 15 5) screen0 = some p ∧
      p.1.registers 15 = 0 ∧ p.1.registers 0 = 5 ∧
      ¬ (p.1.registers 15 = 1 ∧ p.1.registers 0 = 0) :=
  ⟨_, rfl, rfl, rfl, by decide⟩

/-- Reading back the register just written. -/
theorem setReg_same (m : Machine) (x v : Nat) : (setReg m x v).registers x = v := by
  simp [setReg, updateFun]

/-- Reading a register other than the one written. -/
theorem setReg_other (m : Machine) (x v j : Nat) (h : j ≠ x) :
    (setReg m x v).registers j = m.registers j := by
  simp [setReg, updateFun, h]

/-- C3 (amended): for x ≠ 15 and y ≠ 15, the subtract instruction (x − y
direction) sets the flag register to 1 iff a > b (strictly, not a ≥ b), and
stores (a − b) mod 256 in register x. -/
theorem C3_sub_borrow (k : Keyboard) (r : Nat) (m : Machine) (s : Screen)
    (x y : Nat) (hx : x ≠ 15) (hy : y ≠ 15)
    (ha : m.registers x < 256) (hb : m.registers y < 256) :
    ∃ m', execInstr k r (.SubCarry x y) m s = some (m', s) ∧
      (m'.registers 15 = 1 ↔ m.registers y < m.registers x) ∧
      (m'.registers 15 = 0 ↔ ¬ m.registers y < m.registers x) ∧
      (m'.registers x : Int) =
        ((m.registers x : Int) - (m.registers y : Int)) % 256 := by
  simp only [execInstr]
  refine ⟨_, rfl, ?_, ?_, ?_⟩
  · rw [setReg_other _ _ _ _ (Ne.symm hx), setReg_same]
    split <;> simp_all
  · rw [setReg_other _ _ _ _ (Ne.symm hx), setReg_same]
    split <;> simp_all
  · rw [setReg_same, setReg_other _ _ _ _ hx, setReg_other _ _ _ _ hy]
    omega

/-- C4: add-with-carry law.  For x ≠ 15 and 8-bit register values a, b, the
add instruction sets the flag register to 1 iff a + b > 255 and stores
(a + b) mod 256 in register x. -/
theorem C4_add_carry (k : Keyboard) (r : Nat) (m : Machine) (s : Screen)
    (x y : Nat) (hx : x ≠ 15)
    (_ha : m.registers x < 256) (_hb : m.registers y < 256) :
    ∃ m', execInstr k r (.AddCarry x y) m s = some (m', s) ∧
      (m'.registers 15 = 1 ↔ 255 < m.registers x + m.registers y) ∧
      (m'.registers 15 = 0 ↔ m.registers x + m.registers y ≤ 255) ∧
      m'.registers x = (m.registers x + m.registers y) % 256 := by
  simp only [execInstr]
  refine ⟨_, rfl, ?_, ?_, ?_⟩
  · rw [setReg_other _ _ _ _ (Ne.symm hx), setReg_same]
    split <;> simp_all
  · rw [setReg_other _ _ _ _ (Ne.symm hx), setReg_same]
    split <;> simp_all
  · rw [setReg_same]

/-- Machine with V0 = 7, V1 = 3, used by the C3 witness. -/
def c3w : Machine :=
  setReg (setReg baseMachine 0 7) 1 3

/-- C3 witness: a = 7, b = 3 in V0, V1; flag is 1, result 4. -/
theorem C3_sub_borrow_witness :
    ∃ m', execInstr keysNone 0 (.SubCarry 0 1) c3w screen0 = some (m', screen0) ∧
      (m'.registers 15 = 1 ↔ c3w.registers 1 < c3w.registers 0) ∧
      (m'.registers 15 = 0 ↔ ¬ c3w.registers 1 < c3w.registers 0) ∧
      (m'.registers 0 : Int) =
        ((c3w.registers 0 : Int) - (c3w.registers 1 : Int)) % 256 :=
  C3_sub_borrow keysNone 0 c3w screen0 0 1 (by decide) (by decide)
    (by decide) (by decide)

/-- Machine with V0 = 200, V1 = 100, used by the C4 witness. -/
def c4w : Machine :=
  setReg (setReg baseMachine 0 200) 1 100

/-- C4 witness: a = 200, b = 100 in V0, V1; carry is 1, result 44. -/
theorem C4_add_carry_witness :
    ∃ m', execInstr keysNone 0 (.AddCarry 0 1) c4w screen0 = some (m', screen0) ∧
      (m'.registers 15 = 1 ↔ 255 < c4w.registers 0 + c4w.registers 1) ∧
      (m'.registers 15 = 0 ↔ c4w.registers 0 + c4w.registers 1 ≤ 255) ∧
      m'.registers 0 = (c4w.registers 0 + c4w.registers 1) % 256 :=
  C4_add_carry keysNone 0 c4w screen0 0 1 (by decide) (by decide) (by decide)

/-- C7: stack overflow and underflow are fatal.  A call fetched when the stack
pointer is already at capacity (sp = 15: the push pre-increments and would
write `stack[16]`, out of bounds), and a return fetched when the stack is
empty (sp = 0: the pointer decrement would underflow), both abort the step
with a fault (`none`) instead of corrupting state. -/
theorem C7_stack_overflow_underflow (k : Keyboard) (r t : Nat) (s : Screen)
    (m1 m2 : Machine) (nnn : Nat)
    (h1pc : m1.pc + 1 < 4098)
    (h1dec : decodeWord (fetchWord m1) = some (.Call nnn))
    (h1sp : 15 ≤ m1.sp)
    (h2pc : m2.pc + 1 < 4098)
    (h2dec : decodeWord (fetchWord m2) = some .Ret)
    (h2sp : m2.sp = 0) :
    step k r t m1 s = none ∧ step k r t m2 s = none := by
  constructor
  · simp only [step, if_pos h1pc, h1dec, execInstr]
    rw [if_neg (show ¬ (m1.sp + 1 < 16) by omega)]
  · simp only [step, if_pos h2pc, h2dec, execInstr]
    rw [if_pos (show m2.sp < 16 by omega), if_pos (show m2.sp = 0 from h2sp)]

/-- Machine whose next instruction is 0x2200 (call 0x200) with a full stack. -/
def c7Call : Machine :=
  { baseMachine with
    ram := fun a => if a = 512 then 0x22 else if a = 513 then 0x00 else 0,
    sp := 15 }

/-- Machine whose next instruction is 0x00EE (return) with an empty stack. -/
def c7Ret : Machine :=
  { baseMachine with
    ram := fun a => if a = 512 then 0x00 else if a = 513 then 0xEE else 0 }

/-- C7 witness: both fatal cases on concrete machines. -/
theorem C7_stack_overflow_underflow_witness :
    step keysNone 0 0 c7Call screen0 = none ∧
      step keysNone 0 0 c7Ret screen0 = none :=
  C7_stack_overflow_underflow keysNone 0 0 screen0 c7Call c7Ret 512
    (by decide) (by rfl) (by decide) (by decide) (by rfl) (by rfl)

/-- The timer tick never touches ram. -/
theorem tick_ram (t : Nat) (m : Machine) : (tick t m).ram = m.ram := by
  unfold tick; split <;> rfl

/-- The timer tick never touches the program counter. -/
theorem tick_pc (t : Nat) (m : Machine) : (tick t m).pc = m.pc := by
  unfold tick; split <;> rfl

/-- The timer tick never touches the register file. -/
theorem tick_registers (t : Nat) (m : Machine) :
    (tick t m).registers = m.registers := by
  unfold tick; split <;> rfl

/-- The timer tick never touches the address register. -/
theorem tick_register_i (t : Nat) (m : Machine) :
    (tick t m).register_i = m.register_i := by
  unfold tick; split <;> rfl

/-- The timer tick never touches the stack pointer. -/
theorem tick_sp (t : Nat) (m : Machine) : (tick t m).sp = m.sp := by
  unfold tick; split <;> rfl

/-- The timer tick never touches the stack. -/
theorem tick_stack (t : Nat) (m : Machine) : (tick t m).stack = m.stack := by
  unfold tick; split <;> rfl

/-- One step of the key-wait instruction with no key pressed: the pc rollback
cancels the fetch advance, so ram, pc and all registers are preserved (only
the timers and `last_tick` may change) and the screen is untouched. -/
theorem keyWait_step (k : Keyboard) (r t : Nat) (m : Machine) (x : Nat)
    (hk : k.getPressed = none)
    (hpc : m.pc + 1 < 4098)
    (hdec : decodeWord (fetchWord m) = some (.LoadKeyPress x))
    (m1 : Machine) (s1 : Screen)
    (h1 : m1.ram = m.ram) (h2 : m1.pc = m.pc) (h3 : m1.registers = m.registers) :
    ∃ m2, step k r t m1 s1 = some (m2, s1) ∧ m2.ram = m.ram ∧ m2.pc = m.pc ∧
      m2.registers = m.registers := by
  have hfw : fetchWord m1 = fetchWord m := by
    unfold fetchWord; rw [h1, h2]
  have hstep : step k r t m1 s1 =
      some (tick t { m1 with pc := m1.pc + 2 - 2 }, s1) := by
    simp only [step, hfw, hdec, execInstr, hk]
    rw [if_pos (show m1.pc + 1 < 4098 by omega)]
  refine ⟨_, hstep, ?_, ?_, ?_⟩
  · rw [tick_ram]; exact h1
  · rw [tick_pc]; show m1.pc + 2 - 2 = m.pc; omega
  · rw [tick_registers]; exact h3

/-- Spinning on the key-wait instruction: any number of steps with no key
pressed preserves ram, pc and registers, and never faults. -/
theorem keyWait_spin (k : Keyboard) (r : Nat) (m : Machine) (x : Nat)
    (hk : k.getPressed = none)
    (hpc : m.pc + 1 < 4098)
    (hdec : decodeWord (fetchWord m) = some (.LoadKeyPress x))
    (ts : List Nat) :
    ∀ m1 s1, m1.ram = m.ram → m1.pc = m.pc → m1.registers = m.registers →
      ∃ m2, stepN k r ts m1 s1 = some (m2, s1) ∧ m2.ram = m.ram ∧
        m2.pc = m.pc ∧ m2.registers = m.registers := by
  induction ts with
  | nil => exact fun m1 s1 h1 h2 h3 => ⟨m1, rfl, h1, h2, h3⟩
  | cons t ts ih =>
    intro m1 s1 h1 h2 h3
    obtain ⟨m2, hstep, a1, a2, a3⟩ :=
      keyWait_step k r t m x hk hpc hdec m1 s1 h1 h2 h3
    obtain ⟨m3, hsN, b1, b2, b3⟩ := ih m2 s1 a1 a2 a3
    refine ⟨m3, ?_, b1, b2, b3⟩
    simp only [stepN, hstep]
    exact hsN

/-- The step after a key becomes pressed: the key number is stored in the
destination register and the pc advances normally. -/
theorem keyWait_hit (k2 : Keyboard) (r t : Nat) (mN : Machine) (sN : Screen)
    (x i : Nat) (hk2 : k2.getPressed = some i)
    (hpc : mN.pc + 1 < 4098)
    (hdec : decodeWord (fetchWord mN) = some (.LoadKeyPress x)) :
    ∃ m2, step k2 r t mN sN = some (m2, sN) ∧ m2.registers x = i ∧
      m2.pc = mN.pc + 2 := by
  have hstep : step k2 r t mN sN =
      some (tick t (setReg { mN with pc := mN.pc + 2 } x i), sN) := by
    simp only [step, hdec, execInstr, hk2]
    rw [if_pos hpc]
  refine ⟨_, hstep, ?_, ?_⟩
  · rw [tick_registers, setReg_same]
  · rw [tick_pc]; rfl

/-- C6: key-wait blocking.  If the current instruction is the key-wait
instruction and no key is pressed, stepping any number of times leaves the
program counter and the destination register unchanged (the same instruction
is re-fetched every step); a subsequent step with some key pressed stores the
first pressed key's number in the destination register and advances pc by 2. -/
theorem C6_key_wait_blocking (m : Machine) (s : Screen) (k k2 : Keyboard)
    (r : Nat) (x i : Nat) (ts : List Nat) (t2 : Nat)
    (hpc : m.pc + 1 < 4098)
    (hdec : decodeWord (fetchWord m) = some (.LoadKeyPress x))
    (hk : k.getPressed = none)
    (hk2 : k2.getPressed = some i) :
    ∃ mN, stepN k r ts m s = some (mN, s) ∧ mN.pc = m.pc ∧
      mN.registers x = m.registers x ∧
      ∃ m2, step k2 r t2 mN s = some (m2, s) ∧
        m2.registers x = i ∧ m2.pc = m.pc + 2 := by
  obtain ⟨mN, hsN, h1, h2, h3⟩ :=
    keyWait_spin k r m x hk hpc hdec ts m s rfl rfl rfl
  have hfw : fetchWord mN = fetchWord m := by
    unfold fetchWord; rw [h1, h2]
  obtain ⟨m2, hst, c1, c2⟩ :=
    keyWait_hit k2 r t2 mN s x i hk2 (by rw [h2]; exact hpc)
      (by rw [hfw]; exact hdec)
  exact ⟨mN, hsN, h2, by rw [h3], m2, hst, c1, by rw [c2, h2]⟩

/-- Machine whose next instruction is 0xF30A (wait for key, store in V3). -/
def c6w : Machine :=
  { baseMachine with
    ram := fun a => if a = 512 then 0xF3 else if a = 513 then 0x0A else 0 }

/-- C6 witness: two no-key steps spin in place, then pressing key 3 stores 3
in V3 and advances pc. -/
theorem C6_key_wait_blocking_witness :
    ∃ mN, stepN keysNone 0 [0, 0] c6w screen0 = some (mN, screen0) ∧
      mN.pc = c6w.pc ∧ mN.registers 3 = c6w.registers 3 ∧
      ∃ m2, step keys3 0 0 mN screen0 = some (m2, screen0) ∧
        m2.registers 3 = 3 ∧ m2.pc = c6w.pc + 2 :=
  C6_key_wait_blocking c6w screen0 keysNone keys3 0 3 3 [0, 0] 0
    (by decide) (by rfl) (by rfl) (by rfl)

/-- Characterisation of the register-store loop: cells `I..I+K-1` receive the
first K registers, all other cells keep their former contents. -/
theorem storeRegs_spec (m : Machine) (K : Nat) (a : Nat) :
    storeRegs m K a =
      if m.register_i ≤ a ∧ a < m.register_i + K then m.registers (a - m.register_i)
      else m.ram a := by
  induction K with
  | zero => rw [if_neg (by omega)]; rfl
  | succ K ih =>
    simp only [storeRegs, updateFun]
    by_cases h : a = m.register_i + K
    · rw [if_pos h, if_pos (by omega)]
      congr 1
      omega
    · rw [if_neg h, ih]
      split_ifs <;> first | rfl | omega

/-- Characterisation of the register-load loop: registers `0..K-1` receive the
cells at `I..I+K-1`, all other registers keep their former values. -/
theorem loadRegs_spec (m : Machine) (K : Nat) (j : Nat) :
    loadRegs m K j =
      if j < K then m.ram (m.register_i + j) else m.registers j := by
  induction K with
  | zero => rw [if_neg (by omega)]; rfl
  | succ K ih =>
    simp only [loadRegs, updateFun]
    by_cases h : j = K
    · rw [if_pos h, if_pos (by omega), h]
    · rw [if_neg h, ih]
      split_ifs <;> first | rfl | omega

/-- A successful fetch-decode-execute assembles into `step` followed by the
timer tick. -/
theorem step_exec (k : Keyboard) (r t : Nat) (m : Machine) (s : Screen)
    (ins : Instruction) (hpc : m.pc + 1 < 4098)
    (hdec : decodeWord (fetchWord m) = some ins)
    (m' : Machine) (s' : Screen)
    (hexec : execInstr k r ins { m with pc := m.pc + 2 } s = some (m', s')) :
    step k r t m s = some (tick t m', s') := by
  simp only [step, hdec]
  rw [if_pos hpc, hexec]

/-- The timer tick is a no-op when less than the tick period has elapsed. -/
theorem tick_noop (t : Nat) (m : Machine) (h : t - m.last_tick < 16666) :
    tick t m = m := by
  unfold tick
  rw [if_neg (by omega)]

/-- Effect and frame of the store-registers instruction at the exec level. -/
theorem execInstr_LoadAllI (k : Keyboard) (r x : Nat) (m : Machine) (s : Screen)
    (h : m.register_i + x < 4098) :
    ∃ m', execInstr k r (.LoadAllI x) m s = some (m', s) ∧
      m'.register_i = m.register_i ∧ m'.pc = m.pc ∧
      m'.registers = m.registers ∧ m'.sp = m.sp ∧ m'.stack = m.stack ∧
      m'.register_delay = m.register_delay ∧
      m'.register_sound = m.register_sound ∧ m'.last_tick = m.last_tick ∧
      (∀ i, i ≤ x → m'.ram (m.register_i + i) = m.registers i) ∧
      (∀ a, a < m.register_i ∨ m.register_i + x < a → m'.ram a = m.ram a) := by
  refine ⟨{ m with ram := storeRegs m (x + 1) }, ?_, rfl, rfl, rfl, rfl, rfl,
    rfl, rfl, rfl, ?_, ?_⟩
  · simp only [execInstr]
    rw [if_pos h]
  · intro i hi
    show storeRegs m (x + 1) (m.register_i + i) = m.registers i
    rw [storeRegs_spec, if_pos ⟨by omega, by omega⟩]
    congr 1
    omega
  · intro a ha
    show storeRegs m (x + 1) a = m.ram a
    rw [storeRegs_spec, if_neg (by omega)]

/-- Effect and frame of the load-registers instruction at the exec level. -/
theorem execInstr_SetAllI (k : Keyboard) (r x : Nat) (m : Machine) (s : Screen)
    (h : m.register_i + x < 4098) :
    ∃ m', execInstr k r (.SetAllI x) m s = some (m', s) ∧
      m'.register_i = m.register_i ∧ m'.pc = m.pc ∧ m'.ram = m.ram ∧
      m'.sp = m.sp ∧ m'.stack = m.stack ∧
      m'.register_delay = m.register_delay ∧
      m'.register_sound = m.register_sound ∧ m'.last_tick = m.last_tick ∧
      (∀ j, j ≤ x → m'.registers j = m.ram (m.register_i + j)) ∧
      (∀ j, x < j → m'.registers j = m.registers j) := by
  refine ⟨{ m with registers := loadRegs m (x + 1) }, ?_, rfl, rfl, rfl, rfl,
    rfl, rfl, rfl, rfl, ?_, ?_⟩
  · simp only [execInstr]
    rw [if_pos h]
  · intro j hj
    show loadRegs m (x + 1) j = m.ram (m.register_i + j)
    rw [loadRegs_spec, if_pos (by omega)]
  · intro j hj
    show loadRegs m (x + 1) j = m.registers j
    rw [loadRegs_spec, if_neg (by omega)]

/-- C10: frame effect of the bulk register transfers.  With the timer tick not
due, storing V0..Vx to memory at I touches exactly the cells I..I+x, leaves
every register (I included) intact and advances pc by 2; loading V0..Vx from
memory at I touches exactly registers 0..x and leaves all memory intact; the
stack, stack pointer, timers and screen are unchanged in both cases. -/
theorem C10_bulk_transfer_frame (k : Keyboard) (r t1 t2 : Nat)
    (s1 s2 : Screen) (m1 m2 : Machine) (x1 x2 : Nat)
    (h1pc : m1.pc + 1 < 4098)
    (h1dec : decodeWord (fetchWord m1) = some (.LoadAllI x1))
    (h1i : m1.register_i + x1 < 4098)
    (h1t : t1 - m1.last_tick < 16666)
    (h2pc : m2.pc + 1 < 4098)
    (h2dec : decodeWord (fetchWord m2) = some (.SetAllI x2))
    (h2i : m2.register_i + x2 < 4098)
    (h2t : t2 - m2.last_tick < 16666) :
    (∃ mA, step k r t1 m1 s1 = some (mA, s1) ∧
      mA.register_i = m1.register_i ∧ mA.pc = m1.pc + 2 ∧
      mA.registers = m1.registers ∧
      (∀ i, i ≤ x1 → mA.ram (m1.register_i + i) = m1.registers i) ∧
      (∀ a, a < m1.register_i ∨ m1.register_i + x1 < a → mA.ram a = m1.ram a) ∧
      mA.sp = m1.sp ∧ mA.stack = m1.stack ∧
      mA.register_delay = m1.register_delay ∧
      mA.register_sound = m1.register_sound) ∧
    (∃ mB, step k r t2 m2 s2 = some (mB, s2) ∧
      mB.register_i = m2.register_i ∧ mB.pc = m2.pc + 2 ∧
      mB.ram = m2.ram ∧
      (∀ j, j ≤ x2 → mB.registers j = m2.ram (m2.register_i + j)) ∧
      (∀ j, x2 < j → mB.registers j = m2.registers j) ∧
      mB.sp = m2.sp ∧ mB.stack = m2.stack ∧
      mB.register_delay = m2.register_delay ∧
      mB.register_sound = m2.register_sound) := by
  constructor
  · obtain ⟨mA, he, p1, p2, p3, p4, p5, p6, p7, p8, p9, p10⟩ :=
      execInstr_LoadAllI k r x1 { m1 with pc := m1.pc + 2 } s1 h1i
    have hstep := step_exec k r t1 m1 s1 _ h1pc h1dec _ _ he
    have hlt : mA.last_tick = m1.last_tick := p8
    rw [tick_noop t1 mA (by omega)] at hstep
    exact ⟨mA, hstep, p1, p2, p3, p9, p10, p4, p5, p6, p7⟩
  · obtain ⟨mB, he, p1, p2, p3, p4, p5, p6, p7, p8, p9, p10⟩ :=
      execInstr_SetAllI k r x2 { m2 with pc := m2.pc + 2 } s2 h2i
    have hstep := step_exec k r t2 m2 s2 _ h2pc h2dec _ _ he
    have hlt : mB.last_tick = m2.last_tick := p8
    rw [tick_noop t2 mB (by omega)] at hstep
    exact ⟨mB, hstep, p1, p2, p3, p9, p10, p4, p5, p6, p7⟩

/-- Machine whose next instruction is 0xF255 (store V0..V2 at I), I = 1000. -/
def c10a : Machine :=
  { baseMachine with
    ram := fun a => if a = 512 then 0xF2 else if a = 513 then 0x55 else 0,
    register_i := 1000 }

/-- Machine whose next instruction is 0xF165 (load V0..V1 from I), I = 1000. -/
def c10b : Machine :=
  { baseMachine with
    ram := fun a => if a = 512 then 0xF1 else if a = 513 then 0x65 else 0,
    register_i := 1000 }

/-- C10 witness: both bulk transfers on concrete machines. -/
theorem C10_bulk_transfer_frame_witness :
    (∃ mA, step keysNone 0 0 c10a screen0 = some (mA, screen0) ∧
      mA.register_i = c10a.register_i ∧ mA.pc = c10a.pc + 2 ∧
      mA.registers = c10a.registers ∧
      (∀ i, i ≤ 2 → mA.ram (c10a.register_i + i) = c10a.registers i) ∧
      (∀ a, a < c10a.register_i ∨ c10a.register_i + 2 < a →
        mA.ram a = c10a.ram a) ∧
      mA.sp = c10a.sp ∧ mA.stack = c10a.stack ∧
      mA.register_delay = c10a.register_delay ∧
      mA.register_sound = c10a.register_sound) ∧
    (∃ mB, step keysNone 0 0 c10b screen0 = some (mB, screen0) ∧
      mB.register_i = c10b.register_i ∧ mB.pc = c10b.pc + 2 ∧
      mB.ram = c10b.ram ∧
      (∀ j, j ≤ 1 → mB.registers j = c10b.ram (c10b.register_i + j)) ∧
      (∀ j, 1 < j → mB.registers j = c10b.registers j) ∧
      mB.sp = c10b.sp ∧ mB.stack = c10b.stack ∧
      mB.register_delay = c10b.register_delay ∧
      mB.register_sound = c10b.register_sound) :=
  C10_bulk_transfer_frame keysNone 0 0 0 screen0 screen0 c10a c10b 2 1
    (by decide) (by rfl) (by decide) (by decide)
    (by decide) (by rfl) (by decide) (by decide)

/-- Instructions that write a timer register (Fx15 / Fx18). -/
def writesTimer : Instruction → Bool
  | .SetDT _ => true
  | .SetST _ => true
  | _ => false

/-- Lift of `writesTimer` to a decode result. -/
def writesTimerOpt : Option Instruction → Bool
  | some i => writesTimer i
  | none => false

/-- A run is timer-clean when no fetched instruction writes a timer. -/
def okRun (k : Keyboard) (r : Nat) : List Nat → Machine → Screen → Prop
  | [], _, _ => True
  | t :: ts, m, s =>
    writesTimerOpt (decodeWord (fetchWord m)) = false ∧
    match step k r t m s with
    | none => True
    | some p => okRun k r ts p.1 p.2

/-- The draw inner loop only writes registers and the screen. -/
theorem drawRow_timers (rx y byte : Nat) (K : Nat) (ms : Machine × Screen) :
    (drawRow rx y byte K ms).1.register_delay = ms.1.register_delay ∧
    (drawRow rx y byte K ms).1.register_sound = ms.1.register_sound ∧
    (drawRow rx y byte K ms).1.last_tick = ms.1.last_tick := by
  induction K with
  | zero => exact ⟨rfl, rfl, rfl⟩
  | succ K ih => exact ih

/-- The draw outer loop only writes registers and the screen. -/
theorem drawRows_timers (rx ry i0 : Nat) (ram0 : Nat → Nat) (N : Nat)
    (ms : Machine × Screen) :
    (drawRows rx ry i0 ram0 N ms).1.register_delay = ms.1.register_delay ∧
    (drawRows rx ry i0 ram0 N ms).1.register_sound = ms.1.register_sound ∧
    (drawRows rx ry i0 ram0 N ms).1.last_tick = ms.1.last_tick := by
  induction N with
  | zero => exact ⟨rfl, rfl, rfl⟩
  | succ N ih =>
    obtain ⟨a, b, c⟩ := ih
    obtain ⟨d, e, f⟩ := drawRow_timers rx
      (((drawRows rx ry i0 ram0 N ms).1.registers ry + N) % 32) (ram0 (i0 + N))
      8 (drawRows rx ry i0 ram0 N ms)
    exact ⟨d.trans a, e.trans b, f.trans c⟩

/-- Executing any instruction other than the two timer writes leaves the
timers and the tick timestamp untouched. -/
theorem execInstr_preserves_timers (k : Keyboard) (r : Nat) (ins : Instruction)
    (m : Machine) (s : Screen) (p : Machine × Screen)
    (hw : writesTimer ins = false)
    (h : execInstr k r ins m s = some p) :
    p.1.register_delay = m.register_delay ∧
    p.1.register_sound = m.register_sound ∧
    p.1.last_tick = m.last_tick := by
  cases ins <;>
    try (simp only [execInstr] at h
         repeat' split at h
         all_goals try exact Option.noConfusion h
         all_goals (injection h with h2; subst h2; exact ⟨rfl, rfl, rfl⟩))
  case SetDT x => simp [writesTimer] at hw
  case SetST x => simp [writesTimer] at hw
  case Drw x y n =>
    simp only [execInstr] at h
    split at h
    · injection h with h2
      subst h2
      exact drawRows_timers x y m.register_i m.ram n (setReg m 15 0, s)
    · exact Option.noConfusion h

/-- A due timer tick decrements each timer by one (saturating, expressed with
truncated subtraction) and resets the timestamp. -/
theorem tick_fires (t : Nat) (m : Machine) (h : 16666 ≤ t - m.last_tick) :
    (tick t m).register_delay = m.register_delay - 1 ∧
    (tick t m).register_sound = m.register_sound - 1 ∧
    (tick t m).last_tick = t := by
  unfold tick
  rw [if_pos h]
  refine ⟨?_, ?_, rfl⟩
  · show (if 0 < m.register_delay then m.register_delay - 1
      else m.register_delay) = m.register_delay - 1
    split <;> omega
  · show (if 0 < m.register_sound then m.register_sound - 1
      else m.register_sound) = m.register_sound - 1
    split <;> omega

/-- Timer behaviour of one full step of a timer-clean instruction: either the
tick was due (timers decrement once, timestamp set to now) or it was not
(timers and timestamp unchanged). -/
theorem step_timers (k : Keyboard) (r t : Nat) (m : Machine) (s : Screen)
    (p : Machine × Screen)
    (hw : writesTimerOpt (decodeWord (fetchWord m)) = false)
    (h : step k r t m s = some p) :
    (16666 ≤ t - m.last_tick ∧ p.1.register_delay = m.register_delay - 1 ∧
      p.1.register_sound = m.register_sound - 1 ∧ p.1.last_tick = t) ∨
    (t - m.last_tick < 16666 ∧ p.1.register_delay = m.register_delay ∧
      p.1.register_sound = m.register_sound ∧ p.1.last_tick = m.last_tick) := by
  simp only [step] at h
  split at h
  · split at h
    · exact Option.noConfusion h
    · rename_i ins hdec
      rw [hdec] at hw
      split at h
      · exact Option.noConfusion h
      · rename_i m' s' hexec
        injection h with h2
        subst h2
        obtain ⟨e1, e2, e3⟩ := execInstr_preserves_timers k r ins
          { m with pc := m.pc + 2 } s (m', s') (by simpa [writesTimerOpt] using hw)
          hexec
        have e1' : m'.register_delay = m.register_delay := e1
        have e2' : m'.register_sound = m.register_sound := e2
        have e3' : m'.last_tick = m.last_tick := e3
        rcases Nat.lt_or_ge (t - m.last_tick) 16666 with hlt | hge
        · right
          rw [tick_noop t m' (by omega)]
          exact ⟨hlt, e1', e2', e3'⟩
        · left
          obtain ⟨f1, f2, f3⟩ := tick_fires t m' (by omega)
          refine ⟨hge, ?_, ?_, f3⟩
          · rw [f1, e1']
          · rw [f2, e2']
  · exact Option.noConfusion h

/-- In a timer-clean run whose timestamps all lie strictly below
`t0 + 16666`, starting from a machine whose `last_tick` is at least `t0`,
no tick ever fires: timers and timestamp are unchanged. -/
theorem run_no_tick (k : Keyboard) (r t0 : Nat) :
    ∀ (ts : List Nat) (m : Machine) (s : Screen),
      (∀ t ∈ ts, t < t0 + 16666) → t0 ≤ m.last_tick →
      okRun k r ts m s →
      ∀ p, stepN k r ts m s = some p →
        p.1.register_delay = m.register_delay ∧
        p.1.register_sound = m.register_sound ∧
        p.1.last_tick = m.last_tick := by
  intro ts
  induction ts with
  | nil =>
    intro m s _ _ _ p hp
    injection hp with hp2
    subst hp2
    exact ⟨rfl, rfl, rfl⟩
  | cons t ts ih =>
    intro m s hwin hlt hok p hp
    simp only [stepN] at hp
    split at hp
    · exact Option.noConfusion hp
    · rename_i qm qs hq
      have hokq : okRun k r ts qm qs := by
        have h2 := hok.2
        rw [hq] at h2
        exact h2
      rcases step_timers k r t m s (qm, qs) hok.1 hq with
        ⟨hge, _, _, _⟩ | ⟨_, e1, e2, e3⟩
      · have := hwin t (List.mem_cons_self t ts)
        omega
      · have e1' : qm.register_delay = m.register_delay := e1
        have e2' : qm.register_sound = m.register_sound := e2
        have e3' : qm.last_tick = m.last_tick := e3
        obtain ⟨a, b, c⟩ := ih qm qs
          (fun u hu => hwin u (List.mem_cons_of_mem t hu)) (by omega) hokq p hp
        exact ⟨a.trans e1', b.trans e2', c.trans e3'⟩

/-- In a timer-clean run confined to the window `[t0, t0 + 16666)`, at most
one tick fires: either nothing changed, or each timer went down exactly once
(truncated at zero) and `last_tick` now lies in the window. -/
theorem run_one_tick (k : Keyboard) (r t0 : Nat) :
    ∀ (ts : List Nat) (m : Machine) (s : Screen),
      (∀ t ∈ ts, t0 ≤ t ∧ t < t0 + 16666) →
      okRun k r ts m s →
      ∀ p, stepN k r ts m s = some p →
        (p.1.register_delay = m.register_delay ∧
          p.1.register_sound = m.register_sound ∧
          p.1.last_tick = m.last_tick) ∨
        (t0 ≤ p.1.last_tick ∧
          p.1.register_delay = m.register_delay - 1 ∧
          p.1.register_sound = m.register_sound - 1) := by
  intro ts
  induction ts with
  | nil =>
    intro m s _ _ p hp
    injection hp with hp2
    subst hp2
    exact Or.inl ⟨rfl, rfl, rfl⟩
  | cons t ts ih =>
    intro m s hwin hok p hp
    simp only [stepN] at hp
    split at hp
    · exact Option.noConfusion hp
    · rename_i qm qs hq
      have hokq : okRun k r ts qm qs := by
        have h2 := hok.2
        rw [hq] at h2
        exact h2
      have hwts : ∀ u ∈ ts, t0 ≤ u ∧ u < t0 + 16666 :=
        fun u hu => hwin u (List.mem_cons_of_mem t hu)
      rcases step_timers k r t m s (qm, qs) hok.1 hq with
        ⟨_, e1, e2, e3⟩ | ⟨_, e1, e2, e3⟩
      · have e1' : qm.register_delay = m.register_delay - 1 := e1
        have e2' : qm.register_sound = m.register_sound - 1 := e2
        have e3' : qm.last_tick = t := e3
        have ht := hwin t (List.mem_cons_self t ts)
        obtain ⟨a, b, c⟩ := run_no_tick k r t0 ts qm qs
          (fun u hu => (hwts u hu).2) (by omega) hokq p hp
        exact Or.inr ⟨by omega, a.trans e1', b.trans e2'⟩
      · have e1' : qm.register_delay = m.register_delay := e1
        have e2' : qm.register_sound = m.register_sound := e2
        have e3' : qm.last_tick = m.last_tick := e3
        rcases ih qm qs hwts hokq p hp with ⟨a, b, c⟩ | ⟨a, b, c⟩
        · exact Or.inl ⟨a.trans e1', b.trans e2', c.trans e3'⟩
        · exact Or.inr ⟨a, by omega, by omega⟩

/-- C8: timer decrement is saturating and rate-limited.  For a run of any
number of steps whose instructions do not write the timers, with all step
timestamps inside one tick window `[t0, t0 + 16666)` (the code's 60 Hz period,
TIMER_RATE = 16666 microseconds), each timer decreases by at most 1, never
increases, and a zero timer stays zero (no negative wrap). -/
theorem C8_timer_rate_limit (k : Keyboard) (r : Nat) (m : Machine) (s : Screen)
    (ts : List Nat) (t0 : Nat)
    (hwin : ∀ t ∈ ts, t0 ≤ t ∧ t < t0 + 16666)
    (hok : okRun k r ts m s)
    (p : Machine × Screen) (hp : stepN k r ts m s = some p) :
    p.1.register_delay ≤ m.register_delay ∧
    m.register_delay ≤ p.1.register_delay + 1 ∧
    (m.register_delay = 0 → p.1.register_delay = 0) ∧
    p.1.register_sound ≤ m.register_sound ∧
    m.register_sound ≤ p.1.register_sound + 1 ∧
    (m.register_sound = 0 → p.1.register_sound = 0) := by
  rcases run_one_tick k r t0 ts m s hwin hok p hp with
    ⟨a, b, _⟩ | ⟨_, a, b⟩ <;>
    exact ⟨by omega, by omega, by omega, by omega, by omega, by omega⟩

/-- Machine spinning on 0x1200 (jump to 0x200) with nonzero timers. -/
def c8w : Machine :=
  { baseMachine with
    ram := fun a => if a = 512 then 0x12 else 0,
    register_delay := 5, register_sound := 7 }

/-- C8 witness: two steps at time 0 (within one tick window of
`last_tick = 0`) leave both timers within one unit of their start. -/
theorem C8_timer_rate_limit_witness :
    c8w.register_delay ≤ c8w.register_delay ∧
    c8w.register_delay ≤ c8w.register_delay + 1 ∧
    (c8w.register_delay = 0 → c8w.register_delay = 0) ∧
    c8w.register_sound ≤ c8w.register_sound ∧
    c8w.register_sound ≤ c8w.register_sound + 1 ∧
    (c8w.register_sound = 0 → c8w.register_sound = 0) :=
  C8_timer_rate_limit keysNone 0 c8w screen0 [0, 0] 0
    (by decide) ⟨rfl, rfl, trivial⟩ (c8w, screen0) rfl

/-- Collision bits accumulated by one sprite row over bits `0..K-1`, reading
the screen `s` (the screen as it was when the row started). -/
def rowFlag (byte bx y : Nat) (s : Screen) : Nat → Nat
  | 0 => 0
  | b + 1 => rowFlag byte bx y s b ||| (bitAt byte b &&& s.get ((bx + b) % 64) y)

/-- Collision bits accumulated by the first N sprite rows, all reading the
original screen `s`. -/
def spriteFlag (ram0 : Nat → Nat) (i0 bx by0 : Nat) (s : Screen) : Nat → Nat
  | 0 => 0
  | i + 1 => spriteFlag ram0 i0 bx by0 s i |||
      rowFlag (ram0 (i0 + i)) bx ((by0 + i) % 32) s 8

/-- A sprite bit is 0 or 1. -/
theorem bitAt_le_one (byte b : Nat) : bitAt byte b ≤ 1 :=
  Nat.and_le_right

/-- A read pixel is 0 or 1. -/
theorem get_le_one (s : Screen) (x y : Nat) : s.get x y ≤ 1 := by
  unfold Screen.get
  split <;> omega

/-- On a binary screen, `get` returns the stored pixel unchanged. -/
theorem get_eq_pixels (s : Screen) (x y : Nat) (h : s.pixels y x ≤ 1) :
    s.get x y = s.pixels y x := by
  unfold Screen.get
  split <;> omega

/-- `get` only depends on the addressed pixel. -/
theorem get_congr (s1 s2 : Screen) (x y : Nat)
    (h : s1.pixels y x = s2.pixels y x) : s1.get x y = s2.get x y := by
  unfold Screen.get
  rw [h]

/-- The pixel just written by `set`. -/
theorem set_at (s : Screen) (x y v : Nat) : (s.set x y v).pixels y x = v := by
  show (if (y = y ∧ x = x) then v else s.pixels y x) = v
  rw [if_pos ⟨rfl, rfl⟩]

/-- Pixels other than the one written by `set`. -/
theorem set_ne (s : Screen) (x y v py px : Nat) (h : ¬ (py = y ∧ px = x)) :
    (s.set x y v).pixels py px = s.pixels py px := by
  show (if (py = y ∧ px = x) then v else s.pixels py px) = s.pixels py px
  rw [if_neg h]

/-- Bitwise or of two flag bits stays a flag bit. -/
theorem or_le_one {a b : Nat} (ha : a ≤ 1) (hb : b ≤ 1) : a ||| b ≤ 1 := by
  interval_cases a <;> interval_cases b <;> decide

/-- Bitwise or of two flag bits is 1 exactly when one of them is. -/
theorem or_eq_one_iff {a b : Nat} (ha : a ≤ 1) (hb : b ≤ 1) :
    a ||| b = 1 ↔ a = 1 ∨ b = 1 := by
  interval_cases a <;> interval_cases b <;> decide

/-- Bitwise and of two flag bits stays a flag bit. -/
theorem and_le_one {a b : Nat} (hb : b ≤ 1) : a &&& b ≤ 1 :=
  Nat.le_trans Nat.and_le_right hb

/-- Bitwise and of two flag bits is 1 exactly when both are. -/
theorem and_eq_one_iff {a b : Nat} (ha : a ≤ 1) (hb : b ≤ 1) :
    a &&& b = 1 ↔ a = 1 ∧ b = 1 := by
  interval_cases a <;> interval_cases b <;> decide

/-- Xor of two flag bits stays a flag bit. -/
theorem xor_le_one {a b : Nat} (ha : a ≤ 1) (hb : b ≤ 1) : a ^^^ b ≤ 1 := by
  interval_cases a <;> interval_cases b <;> decide

/-- Offsets below 64 are injective modulo 64 after a common shift. -/
theorem mod64_inj {t b c : Nat} (hb : b < 64) (hc : c < 64)
    (h : (t + b) % 64 = (t + c) % 64) : b = c := by omega

/-- Offsets below 32 are injective modulo 32 after a common shift. -/
theorem mod32_inj {t i j : Nat} (hi : i < 32) (hj : j < 32)
    (h : (t + i) % 32 = (t + j) % 32) : i = j := by omega

/-- A row's accumulated collision flag is a flag bit. -/
theorem rowFlag_le_one (byte bx y : Nat) (s : Screen) (K : Nat) :
    rowFlag byte bx y s K ≤ 1 := by
  induction K with
  | zero => exact Nat.zero_le 1
  | succ K ih =>
    exact or_le_one ih (and_le_one (get_le_one s _ y))

/-- A row's collision flag is 1 exactly when some sprite bit overlaps a lit
pixel. -/
theorem rowFlag_eq_one_iff (byte bx y : Nat) (s : Screen) (K : Nat) :
    rowFlag byte bx y s K = 1 ↔
      ∃ b, b < K ∧ bitAt byte b = 1 ∧ s.get ((bx + b) % 64) y = 1 := by
  induction K with
  | zero => simp [rowFlag]
  | succ K ih =>
    rw [rowFlag, or_eq_one_iff (rowFlag_le_one byte bx y s K)
        (and_le_one (get_le_one s _ y)), ih,
      and_eq_one_iff (bitAt_le_one byte K) (get_le_one s _ y)]
    constructor
    · rintro (⟨b, hb, h1, h2⟩ | ⟨h1, h2⟩)
      · exact ⟨b, by omega, h1, h2⟩
      · exact ⟨K, by omega, h1, h2⟩
    · rintro ⟨b, hb, h1, h2⟩
      rcases Nat.lt_or_ge b K with h | h
      · exact Or.inl ⟨b, h, h1, h2⟩
      · have : b = K := by omega
        subst this
        exact Or.inr ⟨h1, h2⟩

/-- The row flag only reads the row it draws into. -/
theorem rowFlag_congr (byte bx y : Nat) (s1 s2 : Screen) (K : Nat)
    (h : ∀ px, s1.pixels y px = s2.pixels y px) :
    rowFlag byte bx y s1 K = rowFlag byte bx y s2 K := by
  induction K with
  | zero => rfl
  | succ K ih =>
    rw [rowFlag, rowFlag, ih, get_congr s1 s2 _ y (h _)]

/-- The sprite's accumulated collision flag is a flag bit. -/
theorem spriteFlag_le_one (ram0 : Nat → Nat) (i0 bx by0 : Nat) (s : Screen)
    (N : Nat) : spriteFlag ram0 i0 bx by0 s N ≤ 1 := by
  induction N with
  | zero => exact Nat.zero_le 1
  | succ N ih => exact or_le_one ih (rowFlag_le_one _ bx _ s 8)

/-- The sprite's collision flag is 1 exactly when some sprite bit overlaps a
lit pixel of the original screen. -/
theorem spriteFlag_eq_one_iff (ram0 : Nat → Nat) (i0 bx by0 : Nat) (s : Screen)
    (N : Nat) :
    spriteFlag ram0 i0 bx by0 s N = 1 ↔
      ∃ i, i < N ∧ ∃ b, b < 8 ∧ bitAt (ram0 (i0 + i)) b = 1 ∧
        s.get ((bx + b) % 64) ((by0 + i) % 32) = 1 := by
  induction N with
  | zero => simp [spriteFlag]
  | succ N ih =>
    rw [spriteFlag, or_eq_one_iff (spriteFlag_le_one ram0 i0 bx by0 s N)
        (rowFlag_le_one _ bx _ s 8), ih, rowFlag_eq_one_iff]
    constructor
    · rintro (⟨i, hi, hrest⟩ | ⟨b, hb, h1, h2⟩)
      · exact ⟨i, by omega, hrest⟩
      · exact ⟨N, by omega, b, hb, h1, h2⟩
    · rintro ⟨i, hi, b, hb, h1, h2⟩
      rcases Nat.lt_or_ge i N with h | h
      · exact Or.inl ⟨i, h, b, hb, h1, h2⟩
      · have : i = N := by omega
        subst this
        exact Or.inr ⟨b, hb, h1, h2⟩

/-- Full characterisation of one sprite row (bits 0..K-1): the machine changes
only in the flag register, which accumulates the row's collision bits; the
screen changes only in row y at the K wrapped columns, each xored once with
its sprite bit. -/
theorem drawRow_spec (rx y byte : Nat) (hrx : rx ≠ 15) (m : Machine)
    (s : Screen) :
    ∀ K, K ≤ 64 → ∀ mK sK, drawRow rx y byte K (m, s) = (mK, sK) →
      mK.ram = m.ram ∧ mK.register_i = m.register_i ∧ mK.pc = m.pc ∧
      mK.sp = m.sp ∧ mK.stack = m.stack ∧
      mK.register_delay = m.register_delay ∧
      mK.register_sound = m.register_sound ∧ mK.last_tick = m.last_tick ∧
      (∀ j, j ≠ 15 → mK.registers j = m.registers j) ∧
      mK.registers 15 = m.registers 15 ||| rowFlag byte (m.registers rx) y s K ∧
      (∀ b, b < K → sK.pixels y ((m.registers rx + b) % 64) =
        s.get ((m.registers rx + b) % 64) y ^^^ bitAt byte b) ∧
      (∀ py px, py ≠ y → sK.pixels py px = s.pixels py px) ∧
      (∀ px, (∀ b, b < K → px ≠ (m.registers rx + b) % 64) →
        sK.pixels y px = s.pixels y px) := by
  intro K
  induction K with
  | zero =>
    intro _ mK sK h
    injection h with hm hs
    subst hm hs
    refine ⟨rfl, rfl, rfl, rfl, rfl, rfl, rfl, rfl, fun j _ => rfl, ?_,
      fun b hb => absurd hb (by omega), fun py px _ => rfl, fun px _ => rfl⟩
    rw [rowFlag]
    exact (Nat.or_zero _).symm
  | succ K ih =>
    intro hK mK sK h
    rw [drawRow] at h
    simp only [drawBit] at h
    obtain ⟨g1, g2, g3, g4, g5, g6, g7, g8, greg, gflag, gpix, grows, gcols⟩ :=
      ih (by omega) (drawRow rx y byte K (m, s)).1 (drawRow rx y byte K (m, s)).2
        rfl
    have hbx : (drawRow rx y byte K (m, s)).1.registers rx = m.registers rx :=
      greg rx hrx
    rw [hbx] at h
    have hK64 : K < 64 := by omega
    have holdpix : (drawRow rx y byte K (m, s)).2.pixels y
        ((m.registers rx + K) % 64) = s.pixels y ((m.registers rx + K) % 64) :=
      gcols _ (fun b hb hbe =>
        absurd (mod64_inj (by omega) hK64 hbe.symm) (by omega))
    have hold : (drawRow rx y byte K (m, s)).2.get
        ((m.registers rx + K) % 64) y = s.get ((m.registers rx + K) % 64) y :=
      get_congr _ _ _ _ holdpix
    injection h with hm hs
    subst hm hs
    refine ⟨g1, g2, g3, g4, g5, g6, g7, g8, ?_, ?_, ?_, ?_, ?_⟩
    · intro j hj
      rw [setReg_other _ _ _ _ hj]
      exact greg j hj
    · rw [setReg_same, gflag, hold, rowFlag, Nat.or_assoc]
    · intro b hb
      rcases Nat.lt_or_ge b K with hbK | hbK
      · rw [set_ne _ _ _ _ _ _ (fun hc =>
          absurd (mod64_inj (by omega) hK64 hc.2) (by omega))]
        exact gpix b hbK
      · have hbK' : b = K := by omega
        subst hbK'
        rw [set_at, hold]
    · intro py px hpy
      rw [set_ne _ _ _ _ _ _ (fun hc => hpy hc.1)]
      exact grows py px hpy
    · intro px hpx
      rw [set_ne _ _ _ _ _ _ (fun hc => hpx K (by omega) hc.2)]
      exact gcols px (fun b hb => hpx b (by omega))

/-- Full characterisation of drawing N sprite rows: the machine changes only
in the flag register; the screen changes only at the N×8 wrapped target
pixels, each xored once with its sprite bit read from the captured ram. -/
theorem drawRows_spec (rx ry i0 : Nat) (ram0 : Nat → Nat) (hrx : rx ≠ 15)
    (hry : ry ≠ 15) (m : Machine) (s : Screen) :
    ∀ N, N ≤ 32 → ∀ mN sN, drawRows rx ry i0 ram0 N (m, s) = (mN, sN) →
      mN.ram = m.ram ∧ mN.register_i = m.register_i ∧ mN.pc = m.pc ∧
      mN.sp = m.sp ∧ mN.stack = m.stack ∧
      mN.register_delay = m.register_delay ∧
      mN.register_sound = m.register_sound ∧ mN.last_tick = m.last_tick ∧
      (∀ j, j ≠ 15 → mN.registers j = m.registers j) ∧
      mN.registers 15 = m.registers 15 |||
        spriteFlag ram0 i0 (m.registers rx) (m.registers ry) s N ∧
      (∀ i b, i < N → b < 8 →
        sN.pixels ((m.registers ry + i) % 32) ((m.registers rx + b) % 64) =
          s.get ((m.registers rx + b) % 64) ((m.registers ry + i) % 32) ^^^
            bitAt (ram0 (i0 + i)) b) ∧
      (∀ py px, (∀ i, i < N → py ≠ (m.registers ry + i) % 32) →
        sN.pixels py px = s.pixels py px) ∧
      (∀ py px, (∀ b, b < 8 → px ≠ (m.registers rx + b) % 64) →
        sN.pixels py px = s.pixels py px) := by
  intro N
  induction N with
  | zero =>
    intro _ mN sN h
    injection h with hm hs
    subst hm hs
    refine ⟨rfl, rfl, rfl, rfl, rfl, rfl, rfl, rfl, fun j _ => rfl, ?_,
      fun i b hi _ => absurd hi (by omega), fun py px _ => rfl,
      fun py px _ => rfl⟩
    rw [spriteFlag]
    exact (Nat.or_zero _).symm
  | succ N ih =>
    intro hN mN sN h
    have h' : drawRow rx
        (((drawRows rx ry i0 ram0 N (m, s)).1.registers ry + N) % 32)
        (ram0 (i0 + N)) 8 (drawRows rx ry i0 ram0 N (m, s)) = (mN, sN) := h
    obtain ⟨g1, g2, g3, g4, g5, g6, g7, g8, greg, gflag, gpix, grows, gcols⟩ :=
      ih (by omega) (drawRows rx ry i0 ram0 N (m, s)).1
        (drawRows rx ry i0 ram0 N (m, s)).2 rfl
    have hbx : (drawRows rx ry i0 ram0 N (m, s)).1.registers rx =
        m.registers rx := greg rx hrx
    have hby : (drawRows rx ry i0 ram0 N (m, s)).1.registers ry =
        m.registers ry := greg ry hry
    rw [hby] at h'
    have hN32 : N < 32 := by omega
    have hrowAgree : ∀ px,
        (drawRows rx ry i0 ram0 N (m, s)).2.pixels
          ((m.registers ry + N) % 32) px =
        s.pixels ((m.registers ry + N) % 32) px :=
      fun px => grows _ px (fun i hi hie =>
        absurd (mod32_inj hN32 (by omega) hie) (by omega))
    obtain ⟨r1, r2, r3, r4, r5, r6, r7, r8, rreg, rflag, rpix, rrows, rcols⟩ :=
      drawRow_spec rx ((m.registers ry + N) % 32) (ram0 (i0 + N)) hrx
        (drawRows rx ry i0 ram0 N (m, s)).1
        (drawRows rx ry i0 ram0 N (m, s)).2 8 (by omega) mN sN h'
    simp only [hbx] at rflag rpix rcols
    refine ⟨r1.trans g1, r2.trans g2, r3.trans g3, r4.trans g4, r5.trans g5,
      r6.trans g6, r7.trans g7, r8.trans g8, ?_, ?_, ?_, ?_, ?_⟩
    · intro j hj
      exact (rreg j hj).trans (greg j hj)
    · rw [rflag, gflag, rowFlag_congr (ram0 (i0 + N)) (m.registers rx)
        ((m.registers ry + N) % 32) _ s 8 hrowAgree, Nat.or_assoc]
      rfl
    · intro i b hi hb
      rcases Nat.lt_or_ge i N with hiN | hiN
      · have hne : (m.registers ry + i) % 32 ≠ (m.registers ry + N) % 32 :=
          fun hc => absurd (mod32_inj (by omega) hN32 hc) (by omega)
        rw [rrows _ _ hne]
        exact gpix i b hiN hb
      · have hiN' : i = N := by omega
        subst hiN'
        rw [rpix b hb, get_congr _ s _ _ (hrowAgree _)]
    · intro py px hpy
      rw [rrows py px (hpy N (by omega))]
      exact grows py px (fun i hi => hpy i (by omega))
    · intro py px hpx
      rcases eq_or_ne py ((m.registers ry + N) % 32) with hpy | hpy
      · subst hpy
        rw [rcols px hpx]
        exact gcols _ px hpx
      · rw [rrows py px hpy]
        exact gcols py px hpx

/-- Full characterisation of the draw instruction at the exec level: the flag
is cleared and then accumulates the collisions, the target pixels are xored
with the sprite bits, everything else is untouched. -/
theorem execInstr_Drw (k : Keyboard) (r : Nat) (rx ry n : Nat) (m : Machine)
    (s : Screen) (hrx : rx ≠ 15) (hry : ry ≠ 15) (hn : n ≤ 32)
    (hbound : m.register_i + n ≤ 4098) :
    ∃ p : Machine × Screen, execInstr k r (.Drw rx ry n) m s = some p ∧
      p.1.ram = m.ram ∧ p.1.register_i = m.register_i ∧ p.1.pc = m.pc ∧
      p.1.sp = m.sp ∧ p.1.stack = m.stack ∧
      p.1.register_delay = m.register_delay ∧
      p.1.register_sound = m.register_sound ∧ p.1.last_tick = m.last_tick ∧
      (∀ j, j ≠ 15 → p.1.registers j = m.registers j) ∧
      p.1.registers 15 =
        spriteFlag m.ram m.register_i (m.registers rx) (m.registers ry) s n ∧
      (∀ i b, i < n → b < 8 →
        p.2.pixels ((m.registers ry + i) % 32) ((m.registers rx + b) % 64) =
          s.get ((m.registers rx + b) % 64) ((m.registers ry + i) % 32) ^^^
            bitAt (m.ram (m.register_i + i)) b) ∧
      (∀ py px, (∀ i, i < n → py ≠ (m.registers ry + i) % 32) →
        p.2.pixels py px = s.pixels py px) ∧
      (∀ py px, (∀ b, b < 8 → px ≠ (m.registers rx + b) % 64) →
        p.2.pixels py px = s.pixels py px) := by
  have hexec : execInstr k r (.Drw rx ry n) m s =
      some (drawRows rx ry m.register_i m.ram n (setReg m 15 0, s)) := by
    simp only [execInstr]
    rw [if_pos hbound]
  obtain ⟨d1, d2, d3, d4, d5, d6, d7, d8, dreg, dflag, dpix, drows, dcols⟩ :=
    drawRows_spec rx ry m.register_i m.ram hrx hry (setReg m 15 0) s n hn
      (drawRows rx ry m.register_i m.ram n (setReg m 15 0, s)).1
      (drawRows rx ry m.register_i m.ram n (setReg m 15 0, s)).2 rfl
  have ex : (setReg m 15 0).registers rx = m.registers rx :=
    setReg_other m 15 0 rx hrx
  have ey : (setReg m 15 0).registers ry = m.registers ry :=
    setReg_other m 15 0 ry hry
  have e0 : (setReg m 15 0).registers 15 = 0 := setReg_same m 15 0
  simp only [ex, ey] at dflag dpix drows dcols
  rw [e0, Nat.zero_or] at dflag
  exact ⟨_, hexec, d1, d2, d3, d4, d5, d6, d7, d8,
    fun j hj => (dreg j hj).trans (setReg_other m 15 0 j hj), dflag, dpix,
    drows, dcols⟩

/-- C5: draw semantics on a binary framebuffer.  For register operands other
than the flag register, drawing n sprite rows read at address I xors each
sprite bit into the pixel at `((base_x + column) mod 64, (base_y + row) mod
32)` (wrapping, never clipping), leaves all other pixels unchanged, and sets
the flag register to 1 exactly when some XOR turned a lit pixel off. -/
theorem C5_draw_semantics (k : Keyboard) (r : Nat) (m : Machine) (s : Screen)
    (rx ry n : Nat) (hrx : rx ≠ 15) (hry : ry ≠ 15) (hn : n ≤ 16)
    (hbound : m.register_i + n ≤ 4098)
    (hbin : ∀ py px, s.pixels py px ≤ 1) :
    ∃ p : Machine × Screen, execInstr k r (.Drw rx ry n) m s = some p ∧
      (∀ i b, i < n → b < 8 →
        p.2.pixels ((m.registers ry + i) % 32) ((m.registers rx + b) % 64) =
          s.pixels ((m.registers ry + i) % 32) ((m.registers rx + b) % 64) ^^^
            bitAt (m.ram (m.register_i + i)) b) ∧
      (∀ py px,
        (¬ ∃ i b, i < n ∧ b < 8 ∧ py = (m.registers ry + i) % 32 ∧
          px = (m.registers rx + b) % 64) →
        p.2.pixels py px = s.pixels py px) ∧
      p.1.registers 15 ≤ 1 ∧
      (p.1.registers 15 = 1 ↔
        ∃ i b, i < n ∧ b < 8 ∧ bitAt (m.ram (m.register_i + i)) b = 1 ∧
          s.pixels ((m.registers ry + i) % 32) ((m.registers rx + b) % 64) = 1) := by
  obtain ⟨p, he, _, _, _, _, _, _, _, _, _, pflag, ppix, prows, pcols⟩ :=
    execInstr_Drw k r rx ry n m s hrx hry (by omega) hbound
  refine ⟨p, he, ?_, ?_, ?_, ?_⟩
  · intro i b hi hb
    rw [ppix i b hi hb, get_eq_pixels s _ _ (hbin _ _)]
  · intro py px hno
    by_cases hrow : ∀ i, i < n → py ≠ (m.registers ry + i) % 32
    · exact prows py px hrow
    · push_neg at hrow
      obtain ⟨i, hi, hpy⟩ := hrow
      refine pcols py px (fun b hb hpx => hno ⟨i, b, hi, hb, hpy, hpx⟩)
  · rw [pflag]
    exact spriteFlag_le_one _ _ _ _ _ _
  · rw [pflag, spriteFlag_eq_one_iff]
    constructor
    · rintro ⟨i, hi, b, hb, h1, h2⟩
      refine ⟨i, b, hi, hb, h1, ?_⟩
      rw [← get_eq_pixels s _ _ (hbin _ _)]
      exact h2
    · rintro ⟨i, b, hi, hb, h1, h2⟩
      refine ⟨i, hi, b, hb, h1, ?_⟩
      rw [get_eq_pixels s _ _ (hbin _ _)]
      exact h2

/-- Machine for the C5 witness: V0 = 60, V1 = 0, I = 768, sprite byte 0xFF. -/
def c5w : Machine :=
  { baseMachine with
    ram := fun a => if a = 768 then 255 else 0,
    registers := updateFun (fun _ => 0) 0 60,
    register_i := 768 }

/-- C5 witness: the 8x1 all-ones sprite drawn at x = 60, y = 0 lands on the
wrapped columns (60 + b) mod 64, row 0. -/
theorem C5_draw_semantics_witness :
    ∃ p : Machine × Screen,
      execInstr keysNone 0 (.Drw 0 1 1) c5w screen0 = some p ∧
      (∀ i b, i < 1 → b < 8 →
        p.2.pixels ((c5w.registers 1 + i) % 32) ((c5w.registers 0 + b) % 64) =
          screen0.pixels ((c5w.registers 1 + i) % 32)
            ((c5w.registers 0 + b) % 64) ^^^
            bitAt (c5w.ram (c5w.register_i + i)) b) ∧
      (∀ py px,
        (¬ ∃ i b, i < 1 ∧ b < 8 ∧ py = (c5w.registers 1 + i) % 32 ∧
          px = (c5w.registers 0 + b) % 64) →
        p.2.pixels py px = screen0.pixels py px) ∧
      p.1.registers 15 ≤ 1 ∧
      (p.1.registers 15 = 1 ↔
        ∃ i b, i < 1 ∧ b < 8 ∧ bitAt (c5w.ram (c5w.register_i + i)) b = 1 ∧
          screen0.pixels ((c5w.registers 1 + i) % 32)
            ((c5w.registers 0 + b) % 64) = 1) :=
  C5_draw_semantics keysNone 0 c5w screen0 0 1 1 (by decide) (by decide)
    (by decide) (by decide) (fun _ _ => Nat.zero_le 1)

/-- Machine for the C9 counterexample and witness: a one-byte sprite 0x80 at
I = 768, drawn at V0 = 0, V1 = 0. -/
def c9c : Machine :=
  { baseMachine with
    ram := fun a => if a = 768 then 128 else 0,
    register_i := 768 }

/-- C9: counterexample to the claim as stated.  Drawing the 1-row sprite 0x80
twice on an empty screen: the first draw has no collision (flag 0), but the
second draw erases the pixel the first one set, which is a collision, so the
flag after the second draw is 1, not 0 as the claim requires. -/
theorem C9_counterexample :
    ∃ p1 p2 : Machine × Screen,
      execInstr keysNone 0 (.Drw 0 1 1) c9c screen0 = some p1 ∧
      execInstr keysNone 0 (.Drw 0 1 1) p1.1 p1.2 = some p2 ∧
      p1.1.registers 15 = 0 ∧ p2.1.registers 15 = 1 ∧
      ¬ p2.1.registers 15 = 0 :=
  ⟨_, _, rfl, rfl, rfl, rfl, by decide⟩

/-- C9 (amended): drawing the identical sprite at the identical position twice
in succession restores the framebuffer exactly; if the first draw caused no
collision, the flag after the second draw is 1 precisely when the sprite has
at least one lit bit in its n rows (the second draw erases the first). -/
theorem C9_draw_double_xor (k : Keyboard) (r : Nat) (m : Machine) (s : Screen)
    (rx ry n : Nat) (hrx : rx ≠ 15) (hry : ry ≠ 15) (hn : n ≤ 16)
    (hbound : m.register_i + n ≤ 4098)
    (hbin : ∀ py px, s.pixels py px ≤ 1) :
    ∃ p1 p2 : Machine × Screen,
      execInstr k r (.Drw rx ry n) m s = some p1 ∧
      execInstr k r (.Drw rx ry n) p1.1 p1.2 = some p2 ∧
      (∀ py px, p2.2.pixels py px = s.pixels py px) ∧
      p2.1.registers 15 ≤ 1 ∧
      (p1.1.registers 15 = 0 →
        (p2.1.registers 15 = 1 ↔
          ∃ i b, i < n ∧ b < 8 ∧ bitAt (m.ram (m.register_i + i)) b = 1)) := by
  obtain ⟨p1, he1, aram, ai, apc, asp, astk, ad, as, alt, areg, aflag, apix,
    arows, acols⟩ := execInstr_Drw k r rx ry n m s hrx hry (by omega) hbound
  obtain ⟨p2, he2, bram, bi, bpc, bsp, bstk, bd, bs, blt, breg, bflag, bpix,
    brows, bcols⟩ := execInstr_Drw k r rx ry n p1.1 p1.2 hrx hry (by omega)
      (by rw [ai]; exact hbound)
  have erx : p1.1.registers rx = m.registers rx := areg rx hrx
  have ery : p1.1.registers ry = m.registers ry := areg ry hry
  simp only [erx, ery, aram, ai] at bflag bpix brows bcols
  refine ⟨p1, p2, he1, he2, ?_, ?_, ?_⟩
  · intro py px
    by_cases htouch : ∃ i b, i < n ∧ b < 8 ∧ py = (m.registers ry + i) % 32 ∧
        px = (m.registers rx + b) % 64
    · obtain ⟨i, b, hi, hb, rfl, rfl⟩ := htouch
      rw [bpix i b hi hb]
      have h1 := apix i b hi hb
      have hle : p1.2.pixels ((m.registers ry + i) % 32)
          ((m.registers rx + b) % 64) ≤ 1 := by
        rw [h1]
        exact xor_le_one (get_le_one s _ _) (bitAt_le_one _ b)
      rw [get_eq_pixels _ _ _ hle, h1, get_eq_pixels s _ _ (hbin _ _),
        Nat.xor_cancel_right]
    · push_neg at htouch
      by_cases hrow : ∀ i, i < n → py ≠ (m.registers ry + i) % 32
      · rw [brows py px hrow]
        exact arows py px hrow
      · push_neg at hrow
        obtain ⟨i, hi, hpy⟩ := hrow
        have hcol : ∀ b, b < 8 → px ≠ (m.registers rx + b) % 64 :=
          fun b hb => htouch i b hi hb hpy
        rw [bcols py px hcol]
        exact acols py px hcol
  · rw [bflag]
    exact spriteFlag_le_one _ _ _ _ _ _
  · intro h0
    have hone : ¬ (spriteFlag m.ram m.register_i (m.registers rx)
        (m.registers ry) s n = 1) := by
      rw [← aflag, h0]
      omega
    have hnc : ∀ i, i < n → ∀ b, b < 8 →
        bitAt (m.ram (m.register_i + i)) b = 1 →
        s.get ((m.registers rx + b) % 64) ((m.registers ry + i) % 32) ≠ 1 :=
      fun i hi b hb h1 hget => hone
        ((spriteFlag_eq_one_iff m.ram m.register_i (m.registers rx)
          (m.registers ry) s n).mpr ⟨i, hi, b, hb, h1, hget⟩)
    rw [bflag, spriteFlag_eq_one_iff]
    constructor
    · rintro ⟨i, hi, b, hb, h1, _⟩
      exact ⟨i, b, hi, hb, h1⟩
    · rintro ⟨i, b, hi, hb, h1⟩
      refine ⟨i, hi, b, hb, h1, ?_⟩
      have hs0 : s.get ((m.registers rx + b) % 64)
          ((m.registers ry + i) % 32) = 0 := by
        have hl := get_le_one s ((m.registers rx + b) % 64)
          ((m.registers ry + i) % 32)
        have := hnc i hi b hb h1
        omega
      have h1pix : p1.2.pixels ((m.registers ry + i) % 32)
          ((m.registers rx + b) % 64) = 1 := by
        rw [apix i b hi hb, hs0, h1]
        rfl
      rw [get_eq_pixels _ _ _ (by rw [h1pix]), h1pix]
    

/-- C9 witness: the amended statement at the concrete 0x80 sprite machine. -/
theorem C9_draw_double_xor_witness :
    ∃ p1 p2 : Machine × Screen,
      execInstr keysNone 0 (.Drw 0 1 1) c9c screen0 = some p1 ∧
      execInstr keysNone 0 (.Drw 0 1 1) p1.1 p1.2 = some p2 ∧
      (∀ py px, p2.2.pixels py px = screen0.pixels py px) ∧
      p2.1.registers 15 ≤ 1 ∧
      (p1.1.registers 15 = 0 →
        (p2.1.registers 15 = 1 ↔
          ∃ i b, i < 1 ∧ b < 8 ∧
            bitAt (c9c.ram (c9c.register_i + i)) b = 1)) :=
  C9_draw_double_xor keysNone 0 c9c screen0 0 1 1 (by decide) (by decide)
    (by decide) (by decide) (fun _ _ => Nat.zero_le 1)

end Chip8
